import Mathlib

/-!
Verification of the L_p metric component of mlpack
(`src/mlpack/core/kernels/lmetric.hpp`).

The C++ class `LMetric<t_pow, t_take_root>` exposes one static function

  double Evaluate(const arma::vec& a, const arma::vec& b) {
    double sum = 0;
    for (size_t i = 0; i < a.n_elem; i++)
      sum += pow(fabs(a[i] - b[i]), t_pow);
    if (!t_take_root)
      return sum;
    return pow(sum, (1.0 / t_pow));
  }

together with three convenience typedefs (Manhattan, squared Euclidean,
Euclidean).  We embed `arma::vec` as `List ℝ` (the doubles are modelled as
real numbers), totalize the element access `v[i]` as `v[i]?` so that an
out-of-bounds read becomes an observable `none`, and embed `Evaluate` as a
function returning `Option ℝ`.
-/

namespace mlpack
namespace kernel

/-- An Armadillo column vector `arma::vec`: an ordered sequence of real
numbers.  `n_elem` is the list length. -/
abbrev Vec := List ℝ

/-- One iteration of the loop body `sum += pow(fabs(a[i] - b[i]), t_pow)`.
The element accesses `a[i]` and `b[i]` are totalized: reading out of bounds
poisons the accumulator with `none`. -/
noncomputable def loopBody (t_pow : ℕ) (a b : Vec) (acc : Option ℝ) (i : ℕ) :
    Option ℝ := do
  let s ← acc
  let ai ← a[i]?
  let bi ← b[i]?
  pure (s + |ai - bi| ^ t_pow)

/-- `LMetric<t_pow, t_take_root>::Evaluate(a, b)`: the loop runs over the
indices `0 .. a.n_elem - 1`, accumulating `pow(fabs(a[i] - b[i]), t_pow)`
into `sum` (which starts at `0`); if `t_take_root` is false the sum is
returned as is, otherwise `pow(sum, 1.0 / t_pow)` is returned. -/
noncomputable def Evaluate (t_pow : ℕ) (t_take_root : Bool) (a b : Vec) :
    Option ℝ :=
  ((List.range a.length).foldl (loopBody t_pow a b) (some 0)).map
    (fun sum => if t_take_root then sum ^ ((1 : ℝ) / t_pow) else sum)

/-- `typedef LMetric<1, false> ManhattanDistance;` -/
noncomputable def ManhattanDistance (a b : Vec) : Option ℝ :=
  Evaluate 1 false a b

/-- `typedef LMetric<2, false> SquaredEuclideanDistance;` -/
noncomputable def SquaredEuclideanDistance (a b : Vec) : Option ℝ :=
  Evaluate 2 false a b

/-- `typedef LMetric<2, true> EuclideanDistance;` -/
noncomputable def EuclideanDistance (a b : Vec) : Option ℝ :=
  Evaluate 2 true a b

/-- The closed-form sum of the spec's formula: `Σ_i |a_i - b_i|^p` over the
indices `0 .. a.length - 1`. -/
noncomputable def specLpSum (p : ℕ) (a b : Vec) : ℝ :=
  ∑ i ∈ Finset.range a.length, |a[i]?.getD 0 - b[i]?.getD 0| ^ p

/-- The spec's formula: `(Σ_i |a_i - b_i|^p)^(1/p)` when `takeRoot` is true,
and the un-rooted sum otherwise. -/
noncomputable def specLp (p : ℕ) (takeRoot : Bool) (a b : Vec) : ℝ :=
  if takeRoot then (specLpSum p a b) ^ ((1 : ℝ) / p) else specLpSum p a b

/-! ### Helper lemmas -/

lemma loopBody_none (p : ℕ) (a b : Vec) (i : ℕ) :
    loopBody p a b none i = none := rfl

lemma loopBody_some (p : ℕ) (a b : Vec) (s : ℝ) (i : ℕ)
    (ha : i < a.length) (hb : i < b.length) :
    loopBody p a b (some s) i = some (s + |a[i] - b[i]| ^ p) := by
  simp [loopBody, List.getElem?_eq_getElem, ha, hb]

lemma foldl_loopBody_range (p : ℕ) (a b : Vec) (hab : a.length ≤ b.length)
    (n : ℕ) (hn : n ≤ a.length) (s : ℝ) :
    (List.range n).foldl (loopBody p a b) (some s) =
      some (s + ∑ i ∈ Finset.range n, |a[i]?.getD 0 - b[i]?.getD 0| ^ p) := by
  induction n with
  | zero => simp
  | succ m ih =>
    have hm : m < a.length := lt_of_lt_of_le (Nat.lt_succ_self m) hn
    have hmb : m < b.length := lt_of_lt_of_le hm hab
    rw [List.range_succ, List.foldl_append, ih (le_of_lt hm)]
    simp only [List.foldl_cons, List.foldl_nil]
    rw [loopBody_some p a b _ m hm hmb, Finset.sum_range_succ]
    simp [List.getElem?_eq_getElem, hm, hmb, add_assoc]

lemma evaluate_eq (p : ℕ) (tr : Bool) (a b : Vec)
    (hab : a.length ≤ b.length) :
    Evaluate p tr a b = some (specLp p tr a b) := by
  unfold Evaluate specLp specLpSum
  rw [foldl_loopBody_range p a b hab a.length le_rfl 0]
  cases tr <;> simp

lemma specLpSum_nonneg (p : ℕ) (a b : Vec) : 0 ≤ specLpSum p a b :=
  Finset.sum_nonneg fun _ _ => pow_nonneg (abs_nonneg _) _

lemma specLp_nonneg (p : ℕ) (tr : Bool) (a b : Vec) : 0 ≤ specLp p tr a b := by
  unfold specLp
  cases tr
  · simpa using specLpSum_nonneg p a b
  · simpa using Real.rpow_nonneg (specLpSum_nonneg p a b) _

lemma specLpSum_comm (p : ℕ) (a b : Vec) (hab : a.length = b.length) :
    specLpSum p a b = specLpSum p b a := by
  unfold specLpSum
  rw [hab]
  exact Finset.sum_congr rfl fun i _ => by rw [abs_sub_comm]

lemma specLpSum_self (p : ℕ) (hp : 0 < p) (a : Vec) : specLpSum p a a = 0 := by
  unfold specLpSum
  refine Finset.sum_eq_zero fun i _ => ?_
  rw [sub_self, abs_zero, zero_pow hp.ne']

lemma specLp_false (p : ℕ) (a b : Vec) : specLp p false a b = specLpSum p a b :=
  rfl

lemma specLp_true (p : ℕ) (a b : Vec) :
    specLp p true a b = (specLpSum p a b) ^ ((1 : ℝ) / p) := rfl

lemma sq_rpow_half (x : ℝ) (hx : 0 ≤ x) :
    ((x ^ (2 : ℕ) : ℝ)) ^ ((1 : ℝ) / 2) = x := by
  rw [← Real.rpow_natCast x 2, ← Real.rpow_mul hx]
  norm_num

lemma getD_map_mul (k : ℝ) (v : Vec) (i : ℕ) :
    (v.map (fun x => k * x))[i]?.getD 0 = k * (v[i]?.getD 0) := by
  rw [List.getElem?_map]
  cases v[i]? <;> simp

lemma specLpSum_smul (p : ℕ) (k : ℝ) (a b : Vec) :
    specLpSum p (a.map (fun x => k * x)) (b.map (fun x => k * x)) =
      |k| ^ p * specLpSum p a b := by
  unfold specLpSum
  rw [List.length_map, Finset.mul_sum]
  refine Finset.sum_congr rfl fun i _ => ?_
  rw [getD_map_mul, getD_map_mul, ← mul_sub, abs_mul, mul_pow]

lemma specLpSum_take (p : ℕ) (a b : Vec) :
    specLpSum p a (b.take a.length) = specLpSum p a b := by
  unfold specLpSum
  refine Finset.sum_congr rfl fun i hi => ?_
  rw [List.getElem?_take_of_lt (Finset.mem_range.mp hi)]

/-! ### Claim theorems -/

/-- C1: for equal-length real vectors `a` and `b` and positive integer power
`p`, `Evaluate(a, b)` returns `(Σ_i |a_i - b_i|^p)^(1/p)` when `takeRoot` is
true, and the un-rooted sum `Σ_i |a_i - b_i|^p` when `takeRoot` is false
(the formula `specLp`). -/
theorem evaluate_matches_spec_formula (p : ℕ) (tr : Bool) (a b : Vec)
    (hp : 0 < p) (hab : a.length = b.length) :
    Evaluate p tr a b = some (specLp p tr a b) :=
  evaluate_eq p tr a b hab.le

/-- Witness for C1 at `p = 2`, `takeRoot = true`, `a = [0]`, `b = [3]`:
the hypotheses hold and the returned value is `(|0 - 3|^2)^(1/2)`. -/
theorem evaluate_matches_spec_formula_witness :
    Evaluate 2 true [(0 : ℝ)] [(3 : ℝ)] =
      some (specLp 2 true [(0 : ℝ)] [(3 : ℝ)]) ∧
    specLp 2 true [(0 : ℝ)] [(3 : ℝ)] = (9 : ℝ) ^ ((1 : ℝ) / 2) := by
  refine ⟨evaluate_matches_spec_formula 2 true [0] [3] two_pos rfl, ?_⟩
  norm_num [specLp, specLpSum]

/-- C2: when `power = 1` the result of `Evaluate(a, b)` is the sum of
absolute coordinate-wise differences (Manhattan distance), both when
`takeRoot` is false and when `takeRoot` is true (the final `pow(sum, 1/1)`
step is a no-op). -/
theorem evaluate_power_one_manhattan (tr : Bool) (a b : Vec)
    (hab : a.length = b.length) :
    Evaluate 1 tr a b =
      some (∑ i ∈ Finset.range a.length, |a[i]?.getD 0 - b[i]?.getD 0|) := by
  rw [evaluate_eq 1 tr a b hab.le]
  unfold specLp specLpSum
  cases tr <;> simp [Real.rpow_one]

/-- Witness for C2 at `a = [0, 0]`, `b = [1, 2]`, for both values of
`takeRoot`: the sum of absolute differences is `3`. -/
theorem evaluate_power_one_manhattan_witness :
    (Evaluate 1 false [(0 : ℝ), 0] [(1 : ℝ), 2] =
      some (∑ i ∈ Finset.range 2,
        |[(0 : ℝ), 0][i]?.getD 0 - [(1 : ℝ), 2][i]?.getD 0|)) ∧
    (Evaluate 1 true [(0 : ℝ), 0] [(1 : ℝ), 2] =
      some (∑ i ∈ Finset.range 2,
        |[(0 : ℝ), 0][i]?.getD 0 - [(1 : ℝ), 2][i]?.getD 0|)) ∧
    (∑ i ∈ Finset.range 2,
        |[(0 : ℝ), 0][i]?.getD 0 - [(1 : ℝ), 2][i]?.getD 0|) = 3 := by
  refine ⟨evaluate_power_one_manhattan false [0, 0] [1, 2] rfl,
          evaluate_power_one_manhattan true [0, 0] [1, 2] rfl, ?_⟩
  norm_num [Finset.sum_range_succ]

/-- C4: for equal-length vectors and any configuration,
`Evaluate(a, b) = Evaluate(b, a)` (symmetry). -/
theorem evaluate_symm (p : ℕ) (tr : Bool) (a b : Vec) (hp : 0 < p)
    (hab : a.length = b.length) :
    Evaluate p tr a b = Evaluate p tr b a := by
  rw [evaluate_eq p tr a b hab.le, evaluate_eq p tr b a hab.ge]
  unfold specLp
  rw [specLpSum_comm p a b hab]

/-- Witness for C4 at `p = 2`, `takeRoot = false`, `a = [1, 2]`,
`b = [3, 5]`. -/
theorem evaluate_symm_witness :
    Evaluate 2 false [(1 : ℝ), 2] [(3 : ℝ), 5] =
      Evaluate 2 false [(3 : ℝ), 5] [(1 : ℝ), 2] :=
  evaluate_symm 2 false [1, 2] [3, 5] two_pos rfl

/-- C5: for equal-length vectors and positive integer power, any scalar
returned by `Evaluate(a, b)` is non-negative. -/
theorem evaluate_nonneg (p : ℕ) (tr : Bool) (a b : Vec) (hp : 0 < p)
    (hab : a.length = b.length) (r : ℝ) (h : Evaluate p tr a b = some r) :
    0 ≤ r := by
  rw [evaluate_eq p tr a b hab.le] at h
  cases h
  exact specLp_nonneg p tr a b

/-- Witness for C5 at `p = 1`, `takeRoot = false`, `a = [5]`, `b = [2]`:
the returned scalar `3` is non-negative. -/
theorem evaluate_nonneg_witness : (0 : ℝ) ≤ 3 := by
  refine evaluate_nonneg 1 false [(5 : ℝ)] [(2 : ℝ)] one_pos rfl 3 ?_
  rw [evaluate_eq 1 false [(5 : ℝ)] [(2 : ℝ)] (by norm_num)]
  norm_num [specLp, specLpSum]

/-- C6: for every vector `a` and every configuration with positive integer
power, `Evaluate(a, a) = 0`, including when the `1/p` root is applied to the
zero sum. -/
theorem evaluate_self_eq_zero (p : ℕ) (tr : Bool) (a : Vec) (hp : 0 < p) :
    Evaluate p tr a a = some 0 := by
  rw [evaluate_eq p tr a a le_rfl]
  unfold specLp
  rw [specLpSum_self p hp a]
  cases tr
  · simp
  · rw [if_pos rfl, Real.zero_rpow (one_div_ne_zero (Nat.cast_ne_zero.mpr hp.ne'))]

/-- Witness for C6 at `p = 2`, `takeRoot = true`, `a = [1, 2, 3]`. -/
theorem evaluate_self_eq_zero_witness :
    Evaluate 2 true [(1 : ℝ), 2, 3] [(1 : ℝ), 2, 3] = some 0 :=
  evaluate_self_eq_zero 2 true [1, 2, 3] two_pos

/-- C3: for a fixed positive integer power `p`, the un-rooted evaluation
(`takeRoot = false`) is a monotonic surrogate of the rooted one: the
un-rooted values of two pairs compare the same way as the rooted ones. -/
theorem evaluate_noRoot_orders_iff_root (p : ℕ) (hp : 0 < p) (a b c d : Vec)
    (hab : a.length = b.length) (hcd : c.length = d.length) (u v r s : ℝ)
    (hu : Evaluate p false a b = some u) (hv : Evaluate p false c d = some v)
    (hr : Evaluate p true a b = some r) (hs : Evaluate p true c d = some s) :
    u ≤ v ↔ r ≤ s := by
  rw [evaluate_eq p false a b hab.le] at hu
  rw [evaluate_eq p false c d hcd.le] at hv
  rw [evaluate_eq p true a b hab.le] at hr
  rw [evaluate_eq p true c d hcd.le] at hs
  obtain rfl := Option.some.inj hu
  obtain rfl := Option.some.inj hv
  obtain rfl := Option.some.inj hr
  obtain rfl := Option.some.inj hs
  rw [specLp_false, specLp_false, specLp_true, specLp_true]
  exact (Real.rpow_le_rpow_iff (specLpSum_nonneg p a b)
    (specLpSum_nonneg p c d) (by positivity)).symm

/-- Witness for C3 at `p = 2`, `(a, b) = ([0], [1])`, `(c, d) = ([0], [2])`:
the un-rooted values are `1` and `4`, the rooted ones `1` and `2`. -/
theorem evaluate_noRoot_orders_iff_root_witness : (1 : ℝ) ≤ 4 ↔ (1 : ℝ) ≤ 2 := by
  have h4 : (4 : ℝ) ^ ((1 : ℝ) / 2) = 2 := by
    rw [show (4 : ℝ) = 2 ^ (2 : ℕ) by norm_num]
    exact sq_rpow_half 2 (by norm_num)
  refine evaluate_noRoot_orders_iff_root 2 two_pos [0] [1] [0] [2] rfl rfl
    1 4 1 2 ?_ ?_ ?_ ?_
  · rw [evaluate_eq 2 false [(0 : ℝ)] [(1 : ℝ)] (by norm_num)]
    norm_num [specLp, specLpSum]
  · rw [evaluate_eq 2 false [(0 : ℝ)] [(2 : ℝ)] (by norm_num)]
    norm_num [specLp, specLpSum]
  · rw [evaluate_eq 2 true [(0 : ℝ)] [(1 : ℝ)] (by norm_num)]
    norm_num [specLp, specLpSum, Real.one_rpow]
  · rw [evaluate_eq 2 true [(0 : ℝ)] [(2 : ℝ)] (by norm_num)]
    norm_num [specLp, specLpSum, h4]

/-- C7: for equal-length vectors, the Squared-Euclidean preset value
(`power = 2`, `takeRoot = false`) is the square of the Euclidean preset value
(`power = 2`, `takeRoot = true`) on the same inputs. -/
theorem squared_euclidean_eq_square_of_euclidean (a b : Vec)
    (hab : a.length = b.length) (r s : ℝ)
    (hr : EuclideanDistance a b = some r)
    (hs : SquaredEuclideanDistance a b = some s) :
    s = r ^ 2 := by
  unfold EuclideanDistance at hr
  unfold SquaredEuclideanDistance at hs
  rw [evaluate_eq 2 true a b hab.le] at hr
  rw [evaluate_eq 2 false a b hab.le] at hs
  obtain rfl := Option.some.inj hr
  obtain rfl := Option.some.inj hs
  rw [specLp_true, specLp_false, show ((2 : ℕ) : ℝ) = 2 by norm_num,
    ← Real.rpow_natCast (specLpSum 2 a b ^ ((1 : ℝ) / 2)) 2,
    ← Real.rpow_mul (specLpSum_nonneg 2 a b)]
  norm_num [Real.rpow_one]

/-- Witness for C7 at `a = [0]`, `b = [2]`: the squared-Euclidean value `4`
is the square of the Euclidean value `2`. -/
theorem squared_euclidean_eq_square_of_euclidean_witness :
    (4 : ℝ) = 2 ^ 2 := by
  have h4 : (4 : ℝ) ^ ((1 : ℝ) / 2) = 2 := by
    rw [show (4 : ℝ) = 2 ^ (2 : ℕ) by norm_num]
    exact sq_rpow_half 2 (by norm_num)
  refine squared_euclidean_eq_square_of_euclidean [0] [2] rfl 2 4 ?_ ?_
  · unfold EuclideanDistance
    rw [evaluate_eq 2 true [(0 : ℝ)] [(2 : ℝ)] (by norm_num)]
    norm_num [specLp, specLpSum, h4]
  · unfold SquaredEuclideanDistance
    rw [evaluate_eq 2 false [(0 : ℝ)] [(2 : ℝ)] (by norm_num)]
    norm_num [specLp, specLpSum]

/-- C8: scaling homogeneity: for positive integer power `p`, any scalar `k`
and equal-length vectors, evaluating with `takeRoot = true` on the
coordinate-wise scaled vectors `k * a` and `k * b` yields `|k|` times the
value on `a` and `b`. -/
theorem evaluate_scaling_homogeneous (p : ℕ) (hp : 0 < p) (k : ℝ) (a b : Vec)
    (hab : a.length = b.length) (r : ℝ) (h : Evaluate p true a b = some r) :
    Evaluate p true (a.map (fun x => k * x)) (b.map (fun x => k * x)) =
      some (|k| * r) := by
  rw [evaluate_eq p true a b hab.le] at h
  obtain rfl := Option.some.inj h
  rw [evaluate_eq p true _ _ (by simpa using hab.le)]
  congr 1
  rw [specLp_true, specLp_true, specLpSum_smul,
    Real.mul_rpow (pow_nonneg (abs_nonneg k) p) (specLpSum_nonneg p a b)]
  congr 1
  rw [← Real.rpow_natCast |k| p, ← Real.rpow_mul (abs_nonneg k), mul_one_div,
    div_self (Nat.cast_ne_zero.mpr hp.ne' : (p : ℝ) ≠ 0), Real.rpow_one]

/-- Witness for C8 at `p = 1`, `k = 2`, `a = [0]`, `b = [1]`: the distance
of the scaled pair is `|2| * 1`. -/
theorem evaluate_scaling_homogeneous_witness :
    Evaluate 1 true ([(0 : ℝ)].map (fun x => 2 * x))
      ([(1 : ℝ)].map (fun x => 2 * x)) = some (|(2 : ℝ)| * 1) := by
  refine evaluate_scaling_homogeneous 1 one_pos 2 [0] [1] rfl 1 ?_
  rw [evaluate_eq 1 true [(0 : ℝ)] [(1 : ℝ)] (by norm_num)]
  norm_num [specLp, specLpSum, Real.one_rpow]

/-- C9: on `a = [0, 0]`, `b = [3, 4]`, the Manhattan preset returns `7`, the
squared-Euclidean preset `25` and the Euclidean preset `5`. -/
theorem presets_on_three_four :
    ManhattanDistance [(0 : ℝ), 0] [(3 : ℝ), 4] = some 7 ∧
    SquaredEuclideanDistance [(0 : ℝ), 0] [(3 : ℝ), 4] = some 25 ∧
    EuclideanDistance [(0 : ℝ), 0] [(3 : ℝ), 4] = some 5 := by
  have h25 : (25 : ℝ) ^ ((1 : ℝ) / 2) = 5 := by
    rw [show (25 : ℝ) = 5 ^ (2 : ℕ) by norm_num]
    exact sq_rpow_half 5 (by norm_num)
  refine ⟨?_, ?_, ?_⟩
  · unfold ManhattanDistance
    rw [evaluate_eq 1 false [(0 : ℝ), 0] [(3 : ℝ), 4] (by norm_num)]
    norm_num [specLp, specLpSum, Finset.sum_range_succ]
  · unfold SquaredEuclideanDistance
    rw [evaluate_eq 2 false [(0 : ℝ), 0] [(3 : ℝ), 4] (by norm_num)]
    norm_num [specLp, specLpSum, Finset.sum_range_succ]
  · unfold EuclideanDistance
    rw [evaluate_eq 2 true [(0 : ℝ), 0] [(3 : ℝ), 4] (by norm_num)]
    norm_num [specLp, specLpSum, Finset.sum_range_succ, h25]

/-- C10: `Evaluate` reads both vectors only at indices `0 .. a.length - 1`:
whenever `b` is at least as long as `a` every access is in bounds (the
result is `some`, the error branch of the totalized indexing unreachable),
and when `b` is longer the result equals the distance over only the first
`a.length` coordinates, `b`'s extra trailing coordinates being ignored. -/
theorem evaluate_indexing_bounded_by_first (p : ℕ) (tr : Bool) (a b : Vec)
    (h : a.length ≤ b.length) :
    (Evaluate p tr a b).isSome = true ∧
    Evaluate p tr a b = Evaluate p tr a (b.take a.length) := by
  have hlen : a.length ≤ (b.take a.length).length := by
    rw [List.length_take]
    exact le_min le_rfl h
  constructor
  · rw [evaluate_eq p tr a b h]
    rfl
  · rw [evaluate_eq p tr a b h, evaluate_eq p tr a (b.take a.length) hlen]
    unfold specLp
    rw [specLpSum_take]

/-- Witness for C10 at `p = 2`, `takeRoot = false`, `a = [1]`,
`b = [2, 3]` (strictly longer than `a`). -/
theorem evaluate_indexing_bounded_by_first_witness :
    (Evaluate 2 false [(1 : ℝ)] [(2 : ℝ), 3]).isSome = true ∧
    Evaluate 2 false [(1 : ℝ)] [(2 : ℝ), 3] =
      Evaluate 2 false [(1 : ℝ)] ([(2 : ℝ), 3].take [(1 : ℝ)].length) :=
  evaluate_indexing_bounded_by_first 2 false [1] [2, 3] (by norm_num)

end kernel
end mlpack
